import Mathlib

/-!
Shallow embedding of `muskit/svs/feats_extract/score_feats_extract.py`
(class `FrameLabelAggregate`): the `forward` frame-label aggregation and the
`get_segments` boundary/segment extraction, together with proofs about them.

Tensors of integer labels are embedded as total functions `Nat → Int`
(batched: `Nat → Nat → Nat → Int` for `(batch, time, label_dim)`) or as
`List Int` for the 1-D per-item streams of `get_segments`.  Fallible tensor
operations (out-of-range indexing, `mode` on an empty slice, the
`as_strided` call with a negative frame count, and the unbound `nframe`
variable on the `center = false` path) are modelled with `Option`: `none`
is a raised Python exception.
-/

namespace Muskit

/-- Semantics of `torch.Tensor.mode` on a 1-D tensor (CPU): the value that
appears most often; when several values are tied for the highest frequency,
the smallest of them is returned.  `none` models the runtime error torch
raises on a tensor with no elements. -/
def tMode (l : List Int) : Option Int :=
  (l.filter (fun v => decide (∀ w ∈ l, l.count w ≤ l.count v))).min?

/-- `tMode` with a junk default, used where the surrounding code guarantees
a nonempty argument (the label dimension of a real tensor is positive). -/
def modeD (l : List Int) : Int := (tMode l).getD 0

/-- `pad = self.win_length // 2` (line 90 of the source). -/
def pad (win : Nat) : Nat := win / 2

/-- `torch.nn.functional.pad(input, (0, 0, pad, pad), "constant", 0)`:
zero-pad the time axis by `p` on each side (source line 92). -/
def zeroPadded (x : Nat → Nat → Nat → Int) (N p : Nat) (b t d : Nat) : Int :=
  if p ≤ t ∧ t < p + N then x b (t - p) d else 0

/-- `input[:, :pad, :] = input[:, pad:(2*pad), :]` (source line 93):
the first `p` positions are overwritten by the next `p` positions. -/
def afterCopy1 (g : Nat → Nat → Nat → Int) (p : Nat) (b t d : Nat) : Int :=
  if t < p then g b (t + p) d else g b t d

/-- `input[:, (max_length-pad):max_length, :] = input[:, (max_length-2*pad):(max_length-pad), :]`
(source lines 94-96), applied after the first copy; `max_length = N + 2*p`. -/
def afterCopy2 (g : Nat → Nat → Nat → Int) (N p : Nat) (b t d : Nat) : Int :=
  if N + p ≤ t ∧ t < N + 2 * p then g b (t - p) d else g b t d

/-- The padded buffer produced by Step 1 of `forward` when `center` is true:
zero padding followed by the two in-place edge copies. -/
def paddedInput (x : Nat → Nat → Nat → Int) (N p : Nat) : Nat → Nat → Nat → Int :=
  afterCopy2 (afterCopy1 (zeroPadded x N p) p) N p

/-- Reading the contiguous `(B, ML, D)` buffer `g` at a flat storage offset,
as `torch.as_strided` does: row-major layout with strides `(ML*D, D, 1)`. -/
def flatBuf (g : Nat → Nat → Nat → Int) (ML D i : Nat) : Int :=
  g (i / (ML * D)) ((i / D) % ML) (i % D)

/-- Result of `FrameLabelAggregate.forward`: the frame count, the
`(batch, frame)` output (0 outside the computed frames, as masked), and the
optional per-item output lengths. -/
structure FwdOut where
  nframe : Nat
  out : Nat → Nat → Int
  olens : Option (Nat → Int)

/-- `FrameLabelAggregate.forward` (source lines 70-120) on a batch
`x : (b, t, d) ↦ label` of time length `N` and label dimension `D`.
`center = false` yields `none`: the source only assigns `nframe` inside the
`if self.center:` branch, so that path raises `UnboundLocalError`.
`hop = 0` would raise `ZeroDivisionError`; a negative frame count makes
`as_strided` raise.  Step 2 is the strided view (flat offset
`b*ML*D + f*hop*D + k*D + d`), Step 3 sums over the window axis (dim 2) and
takes `mode` over the label axis (dim -1), Step 4 masks frames past the
per-item output length with 0. -/
def forward (N D win hop : Nat) (center : Bool) (x : Nat → Nat → Nat → Int)
    (ilens : Option (Nat → Nat)) : Option FwdOut :=
  match center with
  | false => none
  | true =>
    if hop = 0 then none
    else
      let p := pad win
      let ML := N + 2 * p
      let nfI : Int := ((ML : Int) - (win : Int)).fdiv (hop : Int) + 1
      if nfI < 0 then none
      else
        let nf := nfI.toNat
        let g := paddedInput x N p
        let raw : Nat → Nat → Int := fun b f =>
          modeD ((List.range D).map (fun d =>
            ((List.range win).map (fun k =>
              flatBuf g ML D (b * (ML * D) + f * (hop * D) + k * D + d))).sum))
        match ilens with
        | none => some ⟨nf, raw, none⟩
        | some il =>
          let ol : Nat → Int := fun b =>
            (((il b : Int) + 2 * (p : Int)) - (win : Int)).fdiv (hop : Int) + 1
          some ⟨nf, (fun b f => if ol b ≤ (f : Int) then 0 else raw b f), some ol⟩

/-- One boundary walk of `get_segments` (source lines 129-132 and 137-139):
starting from `seq = [0]`, for `i in range(len)` record `i` whenever
`xs[seq[-1]] != xs[i]`.  The recorded indices are accumulated newest-first
(so the Python `seq[-1]` is the head); `none` models an `IndexError`. -/
def walkRev (xs : List Int) : Nat → Option (List Nat)
  | 0 => some [0]
  | n + 1 => do
    let acc ← walkRev xs n
    let a ← xs.get? (acc.headD 0)
    let b ← xs.get? n
    pure (if a ≠ b then n :: acc else acc)

/-- A full single-stream pass: the walk followed by appending the stream's
valid length as final sentinel (source lines 134 and 140), in Python order. -/
def streamSeq (xs : List Int) (len : Nat) : Option (List Nat) :=
  (walkRev xs len).map (fun l => l.reverse ++ [len])

/-- `seq = list(set(seq)); seq.sort()` (source lines 141-142): the sorted
list of the distinct elements. -/
def sortedDedup (l : List Nat) : List Nat :=
  (List.range (l.foldl max 0 + 1)).filter (fun i => decide (i ∈ l))

/-- The combined boundary list of `get_segments`: the union of the duration
walk and the score walk (each with its 0 start and valid-length sentinel),
deduplicated and sorted.  The tempo stream contributes no boundaries. -/
def segBoundaries (d : List Int) (dl : Nat) (s : List Int) (sl : Nat) :
    Option (List Nat) := do
  let q1 ← streamSeq d dl
  let q2 ← streamSeq s sl
  pure (sortedDedup (q1 ++ q2))

/-- `xs[l:r].mode()` (source lines 150-152): Python slicing clamps to the
buffer, and `mode` on an empty slice raises. -/
def sliceMode (xs : List Int) (l r : Nat) : Option Int :=
  tMode ((xs.drop l).take (r - l))

/-- Collect a list of optional values, failing on the first `none`
(the loop of source lines 148-155 stops at the first raising iteration). -/
def seqOpt : List (Option Int) → Option (List Int)
  | [] => some []
  | o :: rest => do
    let v ← o
    let vs ← seqOpt rest
    pure (v :: vs)

/-- The 6-tuple returned by `get_segments` (source line 156):
`seg_duartion, lengths, seg_score, lengths, seg_tempo, lengths`. -/
structure SegOut where
  segDur : List Int
  durLen : Nat
  segScore : List Int
  scoreLen : Nat
  segTempo : List Int
  tempoLen : Nat
deriving DecidableEq

/-- `FrameLabelAggregate.get_segments` (source lines 122-156) for one batch
item.  `tl` (`tempo_lengths`) is accepted but never read, exactly as in the
source. -/
def getSegments (d : List Int) (dl : Nat) (s : List Int) (sl : Nat)
    (t : List Int) (tl : Nat) : Option SegOut := do
  let seq ← segBoundaries d dl s sl
  let n := seq.length - 1
  let segs := (List.range n).map (fun i => (seq.getD i 0, seq.getD (i + 1) 0))
  let segDur ← seqOpt (segs.map (fun pr => sliceMode d pr.1 pr.2))
  let segSc ← seqOpt (segs.map (fun pr => sliceMode s pr.1 pr.2))
  let segTp ← seqOpt (segs.map (fun pr => sliceMode t pr.1 pr.2))
  pure ⟨segDur, n, segSc, n, segTp, n⟩

/-- The most recently recorded boundary index below `i`: the largest member
of `rec` that is `< i` (or 0 when none is). -/
def lastBefore (rec : List Nat) (i : Nat) : Nat :=
  ((rec.filter (fun j => decide (j < i))).foldl max 0)

/-- Modelled from the spec: the aggregation rule as the spec states it in
section 4.1, step 3 — "(a) sum the window along the last (feature/label-dim)
axis per sample producing one scalar per sample-in-window, then (b) take the
statistical mode across the window's time axis".  Used only to compare the
spec's words against the source's actual reduction order. -/
def specSumLabelsThenModeTime (x : Nat → Nat → Nat → Int) (N D win hop b f : Nat) :
    Option Int :=
  tMode ((List.range win).map (fun k =>
    ((List.range D).map (fun d => paddedInput x N (pad win) b (f * hop + k) d)).sum))

/-- Concrete input for the C1 counterexample: one batch item, one label
dimension, time samples `[3, 3, 3, 5, 5]`. -/
def xC : Nat → Nat → Nat → Int := fun _ t _ => ([3, 3, 3, 5, 5] : List Int).getD t 0

/-- Concrete input for the C1 witness: one time sample, five label
dimensions holding `[3, 3, 3, 5, 5]`. -/
def xW : Nat → Nat → Nat → Int := fun _ _ d => ([3, 3, 3, 5, 5] : List Int).getD d 0

/-- All-zero concrete input batch. -/
def x0 : Nat → Nat → Nat → Int := fun _ _ _ => 0

/-- Concrete input lengths (every item has valid length 2). -/
def il0 : Nat → Nat := fun _ => 2

/-- Junk default used to extract the value of a `forward` call known to
succeed. -/
def fwdDefault : FwdOut := ⟨0, fun _ _ => 0, none⟩

/-- C10: the output of `get_segments` never depends on `tempo_lengths`:
the source never reads that argument, so any two calls differing only in
`tempo_lengths` return identical segments and counts; in particular tempo
contributes no boundary of its own (`segBoundaries` is built from the
duration and score streams alone). -/
theorem C10_tempo_lengths_never_used (d : List Int) (dl : Nat) (s : List Int)
    (sl : Nat) (t : List Int) (tl tl' : Nat) :
    getSegments d dl s sl t tl = getSegments d dl s sl t tl' := rfl

/-- C4 counterexample: with `durations_lengths = 0` and `tempo_lengths = 0`
(so "any of the three valid lengths is 0") but `score_lengths = 1`,
`get_segments` returns one segment, not an empty segment list, refuting the
claim that a single zero length yields zero segments. -/
theorem C4_any_zero_length_counterexample :
    getSegments [7] 0 [5] 1 [4] 0 = some ⟨[7], 1, [5], 1, [4], 1⟩ ∧ (1 : Nat) ≠ 0 := by
  decide

/-- C4 (amended): when both `durations_lengths` and `score_lengths` are 0,
`get_segments` returns the empty segment list with all three reported
counts 0 and no indexing error, for every `tempo_lengths` and any buffer
contents. -/
theorem C4_zero_lengths_empty_segments (d s t : List Int) (tl : Nat) :
    getSegments d 0 s 0 t tl = some ⟨[], 0, [], 0, [], 0⟩ := rfl

/-- C5 counterexample: two calls that agree on all three valid lengths and
on every element below each stream's own valid length (the duration buffers
`[1,7]` and `[1,8]` agree below `durations_lengths = 1` and differ only in
the padding position 1) return different outputs, because segment modes
read the duration buffer up to `max(durations_lengths, score_lengths)`. -/
theorem C5_padding_influence_counterexample :
    (∀ i, i < 1 → ([1, 7] : List Int).get? i = ([1, 8] : List Int).get? i) ∧
    getSegments [1, 7] 1 [5, 6] 2 [2, 2] 2 ≠ getSegments [1, 8] 1 [5, 6] 2 [2, 2] 2 := by
  decide

/-- C1 counterexample: on a batch of shape `[1, 5, 1]` with samples
`[3,3,3,5,5]`, `win_length = 5`, `hop_length = 2`, `center = true`, frame 1's
window holds exactly `[3,3,3,5,5]`; the code (sum over the window's time
axis, then mode over the label axis) outputs `19`, while the spec's stated
reduction (sum over the label axis, then mode over the window's time axis)
yields `3`, so the claim's per-frame formula is false of the code. -/
theorem C1_reduction_order_counterexample :
    (forward 5 1 5 2 true xC none).map (fun o => o.out 0 1) = some 19 ∧
    specSumLabelsThenModeTime xC 5 1 5 2 0 1 = some 3 ∧ (19 : Int) ≠ 3 := by
  decide

/-- C9: with centering enabled, after the padding step of `forward` the
first `pad = win_length / 2` positions of the padded buffer equal positions
`pad .. 2*pad - 1`, and the last `pad` positions equal the immediately
preceding `pad` positions, for every batch item and label dimension. -/
theorem C9_padding_copy_invariant (x : Nat → Nat → Nat → Int) (N win b d t : Nat)
    (ht : t < pad win) :
    paddedInput x N (pad win) b t d = paddedInput x N (pad win) b (t + pad win) d ∧
    paddedInput x N (pad win) b (N + pad win + t) d
      = paddedInput x N (pad win) b (N + t) d := by
  unfold paddedInput afterCopy2 afterCopy1 zeroPadded
  constructor <;>
    (split_ifs <;> first | rfl | (exfalso; omega) | (congr 1; omega))

/-- C9 witness: the invariant instantiated at `win_length = 4`, `N = 3`,
`t = 1`. -/
theorem C9_padding_copy_invariant_witness :
    paddedInput xC 3 (pad 4) 0 1 0 = paddedInput xC 3 (pad 4) 0 (1 + pad 4) 0 ∧
    paddedInput xC 3 (pad 4) 0 (3 + pad 4 + 1) 0 = paddedInput xC 3 (pad 4) 0 (3 + 1) 0 :=
  C9_padding_copy_invariant xC 3 4 0 0 1 (by decide)

/-- The integer frame-count expression of `forward` equals the natural
floor-division formula when the window fits the padded length. -/
theorem nfI_eq (M win hop : Nat) (hhop : 0 < hop) (hwin : win ≤ M) :
    ((M : Int) - (win : Int)).fdiv (hop : Int) + 1 = (((M - win) / hop + 1 : Nat) : Int) := by
  have h1 : ((M : Int) - (win : Int)) = ((M - win : Nat) : Int) := by omega
  rw [h1, Int.fdiv_eq_ediv _ (Int.ofNat_nonneg hop), ← Int.natCast_div]
  push_cast
  ring

/-- C2 (the center-true half, and the modelled crash of the center-false
path): with centering, the number of frames is
`(N + 2*(win/2) - win) / hop + 1`; without centering the source raises
`UnboundLocalError` because `nframe` is only assigned inside the
`if self.center:` branch, modelled as `none`. -/
theorem C2_frame_count (N D win hop : Nat) (x : Nat → Nat → Nat → Int)
    (ilens : Option (Nat → Nat)) (hhop : 0 < hop) (hwin : win ≤ N + 2 * pad win) :
    (forward N D win hop true x ilens).map FwdOut.nframe
      = some ((N + 2 * pad win - win) / hop + 1) ∧
    forward N D win hop false x ilens = none := by
  refine ⟨?_, rfl⟩
  have hnf := nfI_eq (N + 2 * pad win) win hop hhop hwin
  simp only [forward, hnf]
  rw [if_neg (by omega : ¬ hop = 0),
    if_neg (not_lt.mpr (Int.ofNat_nonneg ((N + 2 * pad win - win) / hop + 1)))]
  cases ilens <;> simp only [Option.map_some'] <;> rw [Int.toNat_ofNat]

/-- C2 witness: `N = 1024`, `win_length = 512`, `hop_length = 128`,
`center = true` gives 9 frames, and the `center = false` call fails. -/
theorem C2_frame_count_witness :
    (forward 1024 1 512 128 true x0 none).map FwdOut.nframe = some 9 ∧
    forward 512 1 512 128 false x0 none = none := by
  have h1 := C2_frame_count 1024 1 512 128 x0 none (by decide) (by decide)
  have h2 := C2_frame_count 512 1 512 128 x0 none (by decide) (by decide)
  exact ⟨by rw [h1.1]; decide, h2.2⟩

/-- Reading the row-major `(B, ML, D)` buffer at the flat offset
`b*ML*D + t*D + d` recovers element `(b, t, d)`: the index arithmetic of the
`as_strided` view in Step 2 of `forward`. -/
theorem flatBuf_strided (g : Nat → Nat → Nat → Int) (ML D b t d : Nat)
    (hd : d < D) (ht : t < ML) :
    flatBuf g ML D (b * (ML * D) + t * D + d) = g b t d := by
  have hD : 0 < D := by omega
  have hML : 0 < ML := by omega
  have hiD : (b * (ML * D) + t * D + d) / D = b * ML + t := by
    rw [show b * (ML * D) + t * D + d = D * (b * ML + t) + d by ring,
      Nat.mul_add_div hD, Nat.div_eq_of_lt hd, Nat.add_zero]
  have hmD : (b * (ML * D) + t * D + d) % D = d := by
    rw [show b * (ML * D) + t * D + d = D * (b * ML + t) + d by ring,
      Nat.mul_add_mod, Nat.mod_eq_of_lt hd]
  have hi1 : (b * (ML * D) + t * D + d) / (ML * D) = b := by
    rw [show b * (ML * D) + t * D + d = (ML * D) * b + (t * D + d) by ring,
      Nat.mul_add_div (Nat.mul_pos hML hD), Nat.div_eq_of_lt ?_, Nat.add_zero]
    calc t * D + d < t * D + D := by omega
    _ = (t + 1) * D := by ring
    _ ≤ ML * D := Nat.mul_le_mul_right D ht
  have hm1 : (b * ML + t) % ML = t := by
    rw [show b * ML + t = ML * b + t by ring, Nat.mul_add_mod, Nat.mod_eq_of_lt ht]
  unfold flatBuf
  rw [hi1, hiD, hmD, hm1]

/-- C1 (amended): each output frame value of `forward` is produced by first
summing the window across the time axis separately for each label dimension
(`sum(dim=2)`), then taking the statistical mode of those `label_dim` sums
across the label axis (`mode(dim=-1)`). -/
theorem C1_sum_time_then_mode_labels (N D win hop : Nat) (x : Nat → Nat → Nat → Int)
    (b f : Nat) (o : FwdOut) (hD : 0 < D) (hwin : 0 < win)
    (hf : f * hop + win ≤ N + 2 * pad win)
    (hfwd : forward N D win hop true x none = some o) :
    o.out b f = modeD ((List.range D).map (fun d =>
      ((List.range win).map (fun k =>
        paddedInput x N (pad win) b (f * hop + k) d)).sum)) := by
  by_cases h0 : hop = 0
  · rw [h0] at hfwd; simp [forward] at hfwd
  simp only [forward, if_neg h0] at hfwd
  split at hfwd
  · exact absurd hfwd (by simp)
  injection hfwd with hfwd
  subst hfwd
  show modeD _ = modeD _
  congr 1
  refine List.map_congr_left (fun d hd => ?_)
  congr 1
  refine List.map_congr_left (fun k hk => ?_)
  rw [show b * ((N + 2 * pad win) * D) + f * (hop * D) + k * D + d
      = b * ((N + 2 * pad win) * D) + (f * hop + k) * D + d by ring]
  exact flatBuf_strided _ _ _ _ _ _ (List.mem_range.mp hd)
    (by have := List.mem_range.mp hk; omega)

/-- C1 witness: a frame whose five per-label-dimension window sums are
`[3, 3, 3, 5, 5]` aggregates to their mode `3`. -/
theorem C1_sum_time_then_mode_labels_witness :
    ((forward 1 5 1 1 true xW none).getD fwdDefault).out 0 0
      = modeD ((List.range 5).map (fun d =>
        ((List.range 1).map (fun k =>
          paddedInput xW 1 (pad 1) 0 (0 * 1 + k) d)).sum)) ∧
    ((forward 1 5 1 1 true xW none).getD fwdDefault).out 0 0 = 3 :=
  ⟨C1_sum_time_then_mode_labels 1 5 1 1 xW 0 0 _ (by decide) (by decide) (by decide) rfl,
   by decide⟩

/-- C6: when `input_lengths` is provided (and `center` is true, the only
non-raising path), `forward` returns `output_lengths` with
`olens[b] = ((input_lengths[b] + 2*pad) - win_length) // hop_length + 1`
(Python floor division, `pad = win_length / 2`), and every output frame at
index `≥ olens[b]` is exactly zero; when `input_lengths` is omitted, no
length vector is returned. -/
theorem C6_output_lengths_and_masking (N D win hop : Nat) (x : Nat → Nat → Nat → Int)
    (il : Nat → Nat) (o : FwdOut)
    (hfwd : forward N D win hop true x (some il) = some o) :
    (∃ ol, o.olens = some ol ∧
      (∀ b, ol b = (((il b : Int) + 2 * (pad win : Int)) - (win : Int)).fdiv (hop : Int) + 1) ∧
      (∀ (b : Nat) (f : Nat), ol b ≤ (f : Int) → o.out b f = 0)) ∧
    (∀ o', forward N D win hop true x none = some o' → o'.olens = none) := by
  constructor
  · by_cases h0 : hop = 0
    · rw [h0] at hfwd; simp [forward] at hfwd
    simp only [forward, if_neg h0] at hfwd
    split at hfwd
    · exact absurd hfwd (by simp)
    injection hfwd with hfwd
    subst hfwd
    exact ⟨_, rfl, fun b => rfl, fun b f hbf => by simp [hbf]⟩
  · intro o' hfwd'
    by_cases h0 : hop = 0
    · rw [h0] at hfwd'; simp [forward] at hfwd'
    simp only [forward, if_neg h0] at hfwd'
    split at hfwd'
    · exact absurd hfwd' (by simp)
    injection hfwd' with hfwd'
    subst hfwd'
    rfl

/-- C6 witness: `N = 4`, `win = 2`, `hop = 1`, all valid lengths 2 give
`olens = 3`, frame 4 of item 0 is masked to zero, and the
`input_lengths`-omitted call returns no length vector. -/
theorem C6_output_lengths_and_masking_witness :
    ((forward 4 1 2 1 true x0 (some il0)).getD fwdDefault).out 0 4 = 0 ∧
    ((forward 4 1 2 1 true x0 none).getD fwdDefault).olens = none := by
  obtain ⟨⟨ol, _, hfor, hmask⟩, hnone⟩ :=
    C6_output_lengths_and_masking 4 1 2 1 x0 il0 _ rfl
  exact ⟨hmask 0 4 (by rw [hfor 0]; decide), hnone _ rfl⟩

/-- The seed is a lower bound of a `max`-fold. -/
theorem le_foldl_max : ∀ (l : List Nat) (a : Nat), a ≤ l.foldl max a
  | [], _ => Nat.le_refl _
  | y :: t, a => Nat.le_trans (Nat.le_max_left a y) (le_foldl_max t (max a y))

/-- Every member is a lower bound of a `max`-fold. -/
theorem mem_le_foldl_max : ∀ (l : List Nat) (a x : Nat), x ∈ l → x ≤ l.foldl max a
  | [], _, x, hx => absurd hx (List.not_mem_nil x)
  | y :: t, a, x, hx => by
    rcases List.mem_cons.mp hx with h | h
    · subst h; exact Nat.le_trans (Nat.le_max_right a x) (le_foldl_max t (max a x))
    · exact mem_le_foldl_max t (max a y) x h

/-- A `max`-fold is bounded by any common upper bound of seed and members. -/
theorem foldl_max_le : ∀ (l : List Nat) (a c : Nat), a ≤ c → (∀ x ∈ l, x ≤ c) →
    l.foldl max a ≤ c
  | [], _, _, ha, _ => ha
  | y :: t, a, c, ha, h => by
    refine foldl_max_le t (max a y) c ?_ (fun z hz => h z (List.mem_cons_of_mem y hz))
    exact max_le ha (h y (List.mem_cons_self y t))

/-- Appending one later boundary `n` does not change `lastBefore` at any
`i ≤ n`. -/
theorem lastBefore_append_le (rec : List Nat) (n i : Nat) (h : i ≤ n) :
    lastBefore (rec ++ [n]) i = lastBefore rec i := by
  unfold lastBefore
  rw [List.filter_append]
  have hnil : ([n].filter (fun j => decide (j < i))) = [] := by
    simp only [List.filter_cons, List.filter_nil]
    simp [decide_eq_false (by omega : ¬ n < i)]
  rw [hnil, List.append_nil]

/-- When every recorded index is below `i > 0`, `lastBefore` is the plain
`max`-fold of the whole record. -/
theorem lastBefore_all_lt (l : List Nat) (i : Nat) (hi : 0 < i)
    (h0 : ∀ y ∈ l, y = 0 ∨ y < i) : lastBefore l i = l.foldl max 0 := by
  unfold lastBefore
  congr 1
  apply List.filter_eq_self.mpr
  intro y hy
  simp only [decide_eq_true_eq]
  rcases h0 y hy with h | h <;> omega

/-- For a nonempty list whose head bounds all members, the `max`-fold of its
reverse is the head. -/
theorem foldl_max_head : ∀ (l : List Nat), l ≠ [] → (∀ y ∈ l, y ≤ l.headD 0) →
    l.reverse.foldl max 0 = l.headD 0
  | [], hne, _ => absurd rfl hne
  | y :: t, _, hmax => by
    simp only [List.headD_cons] at *
    apply Nat.le_antisymm
    · exact foldl_max_le _ 0 y (Nat.zero_le y)
        (fun z hz => hmax z (List.mem_reverse.mp hz))
    · exact mem_le_foldl_max _ 0 y (List.mem_reverse.mpr (List.mem_cons_self y t))

/-- Invariant of the boundary walk: the accumulator (newest first) is
nonempty, ends at the initial 0, is headed by its maximum, contains only 0
and indices below `n`, and an index `i > 0` is recorded exactly when the
stream's value at `i` differs from the value at the most recently recorded
index before `i`. -/
theorem walk_props (xs : List Int) : ∀ (n : Nat) (l : List Nat),
    walkRev xs n = some l →
    l ≠ [] ∧ (∃ r, l.reverse = 0 :: r) ∧ (∀ y ∈ l, y ≤ l.headD 0) ∧
    (∀ y ∈ l, y = 0 ∨ y < n) ∧
    (∀ i, 0 < i → (i ∈ l ↔ i < n ∧ xs.get? i ≠ xs.get? (lastBefore l.reverse i))) := by
  intro n
  induction n with
  | zero =>
    intro l h
    have hl : l = [0] := (Option.some.inj h).symm
    subst hl
    refine ⟨by simp, ⟨[], rfl⟩, by simp, by simp, fun i hi => ?_⟩
    simp only [List.mem_singleton]
    constructor
    · intro h'; omega
    · rintro ⟨h', -⟩; omega
  | succ n ih =>
    intro l h
    simp only [walkRev] at h
    cases hacc : walkRev xs n with
    | none => rw [hacc] at h; simp at h
    | some acc =>
      rw [hacc] at h
      obtain ⟨hne, ⟨r, hrev⟩, hmax, hlt, hch⟩ := ih acc hacc
      rcases acc with - | ⟨hd, tl⟩
      · exact absurd rfl hne
      simp only [Option.bind_eq_bind, Option.some_bind, List.headD_cons] at h
      cases ha : xs.get? hd with
      | none => rw [ha] at h; simp at h
      | some a =>
        rw [ha] at h
        cases hb : xs.get? n with
        | none => rw [hb] at h; simp at h
        | some b =>
          rw [hb] at h
          simp only [Option.some_bind, Option.pure_def] at h
          have hmem_hd : hd ∈ hd :: tl := List.mem_cons_self hd tl
          have hmax' : ∀ y ∈ hd :: tl, y ≤ hd := by
            simpa only [List.headD_cons] using hmax
          by_cases hab : a = b
          · -- no new boundary recorded
            have hl : l = hd :: tl := by
              subst hab
              simpa using (Option.some.inj h).symm
            subst hl
            refine ⟨hne, ⟨r, hrev⟩, hmax, ?_, ?_⟩
            · exact fun y hy => (hlt y hy).imp id (fun h' => by omega)
            · intro i hi
              rcases Nat.lt_trichotomy i n with hin | hin | hin
              · constructor
                · intro hmem
                  obtain ⟨-, hne_v⟩ := (hch i hi).mp hmem
                  exact ⟨by omega, hne_v⟩
                · rintro ⟨-, hne_v⟩
                  exact (hch i hi).mpr ⟨hin, hne_v⟩
              · subst hin
                have hnotmem : i ∉ hd :: tl := by
                  intro hmem
                  rcases hlt i hmem with h' | h' <;> omega
                constructor
                · intro hmem; exact absurd hmem hnotmem
                · rintro ⟨-, hne_v⟩
                  exfalso
                  apply hne_v
                  have hlb : lastBefore (hd :: tl).reverse i = hd := by
                    rw [lastBefore_all_lt _ i hi
                      (fun y hy => hlt y (List.mem_reverse.mp hy)),
                      foldl_max_head _ hne hmax]
                    rfl
                  rw [hlb, ha, hb, hab]
              · constructor
                · intro hmem
                  rcases hlt i hmem with h' | h' <;> omega
                · rintro ⟨h', -⟩; omega
          · -- a new boundary `n` is recorded
            have hl : l = n :: hd :: tl := by
              have := (Option.some.inj h).symm
              simpa [if_pos hab] using this
            subst hl
            have hn_pos : 0 < n := by
              rcases Nat.eq_zero_or_pos n with h0 | h0
              · exfalso
                subst h0
                have : hd = 0 := by
                  rcases hlt hd hmem_hd with h' | h' <;> omega
                rw [this, hb] at ha
                exact hab (Option.some.inj ha).symm
              · exact h0
            refine ⟨by simp, ⟨r ++ [n], by rw [List.reverse_cons, hrev]; rfl⟩, ?_, ?_, ?_⟩
            · intro y hy
              simp only [List.headD_cons]
              rcases List.mem_cons.mp hy with h' | h'
              · omega
              · rcases hlt y h' with h'' | h'' <;> omega
            · intro y hy
              rcases List.mem_cons.mp hy with h' | h'
              · right; omega
              · exact (hlt y h').imp id (fun h'' => by omega)
            · intro i hi
              have hrec' : (n :: hd :: tl).reverse = (hd :: tl).reverse ++ [n] :=
                List.reverse_cons n (hd :: tl)
              rcases Nat.lt_trichotomy i n with hin | hin | hin
              · have hlb : lastBefore (n :: hd :: tl).reverse i
                    = lastBefore (hd :: tl).reverse i := by
                  rw [hrec', lastBefore_append_le _ _ _ (by omega)]
                rw [hlb]
                constructor
                · intro hmem
                  rcases List.mem_cons.mp hmem with h' | h'
                  · omega
                  · obtain ⟨-, hne_v⟩ := (hch i hi).mp h'
                    exact ⟨by omega, hne_v⟩
                · rintro ⟨-, hne_v⟩
                  exact List.mem_cons_of_mem n ((hch i hi).mpr ⟨hin, hne_v⟩)
              · subst hin
                have hlb : lastBefore (i :: hd :: tl).reverse i = hd := by
                  rw [hrec', lastBefore_append_le _ _ _ (Nat.le_refl i),
                    lastBefore_all_lt _ i hi
                      (fun y hy => hlt y (List.mem_reverse.mp hy)),
                    foldl_max_head _ hne hmax]
                  rfl
                rw [hlb, ha, hb]
                constructor
                · intro _
                  refine ⟨by omega, fun hc => hab (Option.some.inj hc).symm⟩
                · intro _
                  exact List.mem_cons_self i (hd :: tl)
              · constructor
                · intro hmem
                  rcases List.mem_cons.mp hmem with h' | h'
                  · omega
                  · rcases hlt i h' with h'' | h'' <;> omega
                · rintro ⟨h', -⟩; omega

/-- The boundary walk succeeds whenever the valid length is within the
buffer. -/
theorem walk_isSome (xs : List Int) : ∀ (n : Nat), n ≤ xs.length →
    ∃ l, walkRev xs n = some l := by
  intro n
  induction n with
  | zero => exact fun _ => ⟨[0], rfl⟩
  | succ n ih =>
    intro hlen
    obtain ⟨acc, hacc⟩ := ih (by omega)
    obtain ⟨hne, -, -, hlt, -⟩ := walk_props xs n acc hacc
    have hhd : acc.headD 0 < xs.length := by
      cases acc with
      | nil => exact absurd rfl hne
      | cons hd tl =>
        simp only [List.headD_cons]
        rcases hlt hd (List.mem_cons_self hd tl) with h | h <;> omega
    have hn : n < xs.length := by omega
    obtain ⟨a, ha⟩ : ∃ a, xs.get? (acc.headD 0) = some a := by
      rw [List.get?_eq_getElem?]
      exact ⟨_, List.getElem?_eq_getElem hhd⟩
    obtain ⟨b, hb⟩ : ∃ b, xs.get? n = some b := by
      rw [List.get?_eq_getElem?]
      exact ⟨_, List.getElem?_eq_getElem hn⟩
    refine ⟨if a ≠ b then n :: acc else acc, ?_⟩
    simp only [walkRev, hacc, ha, hb, Option.bind_eq_bind, Option.some_bind,
      Option.pure_def]

/-- C7: in each boundary walk of `get_segments` (the duration pass and the
score pass both go through `streamSeq`), the recorded list starts with
index 0, ends with the stream's valid length as final sentinel, and an
index `i > 0` is recorded if and only if `i` is below the valid length and
the stream's value at `i` differs from the value at the most recently
recorded boundary index (not from the value at `i - 1`). -/
theorem C7_boundary_walk_rule (xs : List Int) (len : Nat) (q : List Nat)
    (hq : streamSeq xs len = some q) :
    ∃ rec, q = rec ++ [len] ∧ rec.head? = some 0 ∧
      ∀ i, 0 < i →
        (i ∈ rec ↔ (i < len ∧ xs.get? i ≠ xs.get? (lastBefore rec i))) := by
  unfold streamSeq at hq
  cases hw : walkRev xs len with
  | none => rw [hw] at hq; simp at hq
  | some l =>
    rw [hw] at hq
    simp only [Option.map_some'] at hq
    obtain ⟨-, ⟨r, hrev⟩, -, -, hch⟩ := walk_props xs len l hw
    refine ⟨l.reverse, (Option.some.inj hq).symm, by rw [hrev]; rfl, ?_⟩
    intro i hi
    rw [List.mem_reverse]
    exact hch i hi

/-- C7 witness: stream `[1, 2]` with valid length 2 yields the sequence
`[0, 1, 2]`, whose recorded part `[0, 1]` satisfies the rule. -/
theorem C7_boundary_walk_rule_witness :
    ∃ rec, ([0, 1, 2] : List Nat) = rec ++ [2] ∧ rec.head? = some 0 ∧
      ∀ i, 0 < i →
        (i ∈ rec ↔ (i < 2 ∧ ([1, 2] : List Int).get? i
          ≠ ([1, 2] : List Int).get? (lastBefore rec i))) :=
  C7_boundary_walk_rule [1, 2] 2 [0, 1, 2] rfl

/-- `tMode` returns an element of maximal frequency that is the lowest
among all elements tied for the maximal frequency. -/
theorem tMode_max_count (l : List Int) (v : Int) (hv : v ∈ l)
    (hmax : ∀ w ∈ l, l.count w ≤ l.count v) :
    ∃ m, tMode l = some m ∧ m ∈ l ∧ m ≤ v ∧ ∀ w ∈ l, l.count w ≤ l.count m := by
  unfold tMode
  have hvP : (fun u => decide (∀ w ∈ l, l.count w ≤ l.count u)) v = true := by
    simpa using hmax
  have hvf : v ∈ l.filter (fun u => decide (∀ w ∈ l, l.count w ≤ l.count u)) :=
    List.mem_filter.mpr ⟨hv, hvP⟩
  cases hm : (l.filter (fun u => decide (∀ w ∈ l, l.count w ≤ l.count u))).min? with
  | none =>
    rw [List.min?_eq_none_iff] at hm
    rw [hm] at hvf
    cases hvf
  | some m =>
    have hmem_f := List.min?_mem (fun a b => min_choice a b) hm
    have hle := (List.le_min?_iff (fun a b c => le_min_iff) hm).mp (le_refl m)
    obtain ⟨hmem, hPm⟩ := List.mem_filter.mp hmem_f
    exact ⟨m, rfl, hmem, hle v hvf, by simpa using hPm⟩

/-- `tMode` succeeds on every nonempty list. -/
theorem tMode_isSome (l : List Int) (hl : l ≠ []) : ∃ m, tMode l = some m := by
  obtain ⟨v, hv, hmax⟩ : ∃ v ∈ l, ∀ w ∈ l, l.count w ≤ l.count v := by
    cases hm : l.argmax (fun v => l.count v) with
    | none => exact absurd (List.argmax_eq_none.mp hm) hl
    | some v =>
      have hmem : v ∈ l.argmax (fun v => l.count v) := hm
      exact ⟨v, List.argmax_mem hmem, fun w hw => List.le_of_mem_argmax hw hmem⟩
  obtain ⟨m, hm, -, -, -⟩ := tMode_max_count l v hv hmax
  exact ⟨m, hm⟩

/-- C8: every mode the module computes goes through `tMode` (the per-frame
`mode(dim=-1)` of `forward` via `modeD`, the per-segment modes of
`get_segments` via `sliceMode`); `tMode` returns a value of maximal
frequency and breaks ties by returning the lowest such value; in particular
the mode of `[3, 3, 5, 5]` is `3`. -/
theorem C8_mode_tie_break (l : List Int) (v : Int) (hv : v ∈ l)
    (hmax : ∀ w ∈ l, l.count w ≤ l.count v) :
    (∃ m, tMode l = some m ∧ m ∈ l ∧ m ≤ v ∧ ∀ w ∈ l, l.count w ≤ l.count m) ∧
    tMode [3, 3, 5, 5] = some 3 ∧ sliceMode [3, 3, 5, 5] 0 4 = some 3 ∧
    modeD [3, 3, 5, 5] = 3 :=
  ⟨tMode_max_count l v hv hmax, by decide, by decide, by decide⟩

/-- C8 witness: on `[3, 3, 5, 5]` the value 5 is tied for the maximal
frequency, and the returned mode is `3 ≤ 5`. -/
theorem C8_mode_tie_break_witness :
    (∃ m, tMode [3, 3, 5, 5] = some m ∧ m ∈ ([3, 3, 5, 5] : List Int) ∧ m ≤ 5 ∧
      ∀ w ∈ ([3, 3, 5, 5] : List Int),
        ([3, 3, 5, 5] : List Int).count w ≤ ([3, 3, 5, 5] : List Int).count m) ∧
    tMode [3, 3, 5, 5] = some 3 ∧ sliceMode [3, 3, 5, 5] 0 4 = some 3 ∧
    modeD [3, 3, 5, 5] = 3 :=
  C8_mode_tie_break [3, 3, 5, 5] 5 (by decide) (by decide)

/-- C3: on durations `[1,1,2,2,2]` and score `[9,9,9,8,8]` with both valid
lengths 5 and any tempo buffer over the same five indices, the boundary
union is `[0, 2, 3, 5]` and exactly 3 segments are produced, with segment
durations `[1, 2, 2]` and segment scores `[9, 9, 8]`. -/
theorem C3_segment_example (t : List Int) (tl : Nat) (ht : t.length = 5) :
    segBoundaries [1, 1, 2, 2, 2] 5 [9, 9, 9, 8, 8] 5 = some [0, 2, 3, 5] ∧
    ∃ st, getSegments [1, 1, 2, 2, 2] 5 [9, 9, 9, 8, 8] 5 t tl
      = some ⟨[1, 2, 2], 3, [9, 9, 8], 3, st, 3⟩ := by
  refine ⟨by decide, ?_⟩
  obtain ⟨a, b, c, d, e, rfl⟩ : ∃ a b c d e, t = [a, b, c, d, e] := by
    rcases t with - | ⟨a, t⟩; · simp at ht
    rcases t with - | ⟨b, t⟩; · simp at ht
    rcases t with - | ⟨c, t⟩; · simp at ht
    rcases t with - | ⟨d, t⟩; · simp at ht
    rcases t with - | ⟨e, t⟩; · simp at ht
    rcases t with - | ⟨f, t⟩
    · exact ⟨a, b, c, d, e, rfl⟩
    · simp only [List.length_cons] at ht; omega
  obtain ⟨m1, hm1⟩ := tMode_isSome [a, b] (by simp)
  obtain ⟨m2, hm2⟩ := tMode_isSome [c] (by simp)
  obtain ⟨m3, hm3⟩ := tMode_isSome [d, e] (by simp)
  have key : getSegments [1, 1, 2, 2, 2] 5 [9, 9, 9, 8, 8] 5 [a, b, c, d, e] tl
      = (seqOpt [tMode [a, b], tMode [c], tMode [d, e]]).bind
          (fun st => some ⟨[1, 2, 2], 3, [9, 9, 8], 3, st, 3⟩) := rfl
  refine ⟨[m1, m2, m3], ?_⟩
  rw [key, hm1, hm2, hm3]
  rfl

/-- C3 witness: the theorem applied to the all-zero tempo buffer. -/
theorem C3_segment_example_witness :
    segBoundaries [1, 1, 2, 2, 2] 5 [9, 9, 9, 8, 8] 5 = some [0, 2, 3, 5] ∧
    ∃ st, getSegments [1, 1, 2, 2, 2] 5 [9, 9, 9, 8, 8] 5 [0, 0, 0, 0, 0] 5
      = some ⟨[1, 2, 2], 3, [9, 9, 8], 3, st, 3⟩ :=
  C3_segment_example [0, 0, 0, 0, 0] 5 rfl

/-- Two buffers agreeing below `M` produce identical boundary walks for any
valid length `n ≤ M`. -/
theorem walk_agree (u u' : List Int) (M : Nat)
    (h : ∀ i, i < M → u.get? i = u'.get? i) :
    ∀ n, n ≤ M → walkRev u n = walkRev u' n := by
  intro n
  induction n with
  | zero => intro _; rfl
  | succ n ih =>
    intro hn
    have hrec := ih (by omega)
    simp only [walkRev, hrec]
    cases hacc : walkRev u' n with
    | none => rfl
    | some acc =>
      obtain ⟨hne, -, -, hlt, -⟩ := walk_props u' n acc hacc
      have hhdlt : acc.headD 0 < M := by
        rcases acc with - | ⟨hd, tl⟩
        · exact absurd rfl hne
        · simp only [List.headD_cons]
          rcases hlt hd (List.mem_cons_self hd tl) with h' | h' <;> omega
      simp only [Option.bind_eq_bind, Option.some_bind]
      rw [h (acc.headD 0) hhdlt, h n (by omega)]

/-- Two buffers agreeing below `M` yield identical Python slices `u[l:r]`
whenever `r ≤ M`. -/
theorem slice_congr (u u' : List Int) (M : Nat)
    (h : ∀ i, i < M → u.get? i = u'.get? i) (l r : Nat) (hr : r ≤ M) :
    (u.drop l).take (r - l) = (u'.drop l).take (r - l) := by
  apply List.ext_getElem?
  intro j
  by_cases hj : j < r - l
  · rw [List.getElem?_take_of_lt hj, List.getElem?_take_of_lt hj,
      List.getElem?_drop, List.getElem?_drop]
    have hlj := h (l + j) (by omega)
    simpa only [List.get?_eq_getElem?] using hlj
  · rw [List.getElem?_eq_none (Nat.le_trans (List.length_take_le _ _) (by omega)),
      List.getElem?_eq_none (Nat.le_trans (List.length_take_le _ _) (by omega))]

/-- Every element of the combined boundary list is at most
`max durations_lengths score_lengths`. -/
theorem segBoundaries_le (d : List Int) (dl : Nat) (s : List Int) (sl : Nat)
    (seq : List Nat) (hseq : segBoundaries d dl s sl = some seq) :
    ∀ y ∈ seq, y ≤ max dl sl := by
  unfold segBoundaries at hseq
  cases h1 : streamSeq d dl with
  | none => rw [h1] at hseq; simp at hseq
  | some q1 =>
    cases h2 : streamSeq s sl with
    | none => rw [h1, h2] at hseq; simp at hseq
    | some q2 =>
      rw [h1, h2] at hseq
      simp only [Option.bind_eq_bind, Option.some_bind, Option.pure_def,
        Option.some.injEq] at hseq
      have hstream : ∀ (u : List Int) (n : Nat) (q : List Nat),
          streamSeq u n = some q → ∀ y ∈ q, y ≤ n := by
        intro u n q hq y hy
        unfold streamSeq at hq
        cases hw : walkRev u n with
        | none => rw [hw] at hq; simp at hq
        | some l =>
          rw [hw] at hq
          simp only [Option.map_some', Option.some.injEq] at hq
          obtain ⟨-, -, -, hlt, -⟩ := walk_props u n l hw
          rw [← hq] at hy
          rcases List.mem_append.mp hy with h' | h'
          · rcases hlt y (List.mem_reverse.mp h') with h'' | h'' <;> omega
          · simp only [List.mem_singleton] at h'
            omega
      intro y hy
      rw [← hseq] at hy
      unfold sortedDedup at hy
      have hmem : y ∈ q1 ++ q2 := by
        have := (List.mem_filter.mp hy).2
        simpa using this
      rcases List.mem_append.mp hmem with h' | h'
      · exact Nat.le_trans (hstream d dl q1 h1 y h') (Nat.le_max_left dl sl)
      · exact Nat.le_trans (hstream s sl q2 h2 y h') (Nat.le_max_right dl sl)

/-- C5 (amended): two calls of `get_segments` that agree on the three valid
lengths and on every buffer element at indices below
`max durations_lengths score_lengths` return identical outputs: values at or
beyond that bound never influence the result.  (Padding between a stream's
own valid length and that bound can influence it: see the counterexample.) -/
theorem C5_padding_beyond_max_irrelevant (d d' s s' t t' : List Int)
    (dl sl tl : Nat)
    (hd : ∀ i, i < max dl sl → d.get? i = d'.get? i)
    (hs : ∀ i, i < max dl sl → s.get? i = s'.get? i)
    (ht : ∀ i, i < max dl sl → t.get? i = t'.get? i) :
    getSegments d dl s sl t tl = getSegments d' dl s' sl t' tl := by
  have hwd : walkRev d dl = walkRev d' dl :=
    walk_agree d d' (max dl sl) hd dl (Nat.le_max_left dl sl)
  have hws : walkRev s sl = walkRev s' sl :=
    walk_agree s s' (max dl sl) hs sl (Nat.le_max_right dl sl)
  have hbound : segBoundaries d dl s sl = segBoundaries d' dl s' sl := by
    unfold segBoundaries streamSeq
    rw [hwd, hws]
  unfold getSegments
  rw [hbound]
  cases hseq : segBoundaries d' dl s' sl with
  | none => rfl
  | some seq =>
    simp only [Option.bind_eq_bind, Option.some_bind]
    have hb := segBoundaries_le d' dl s' sl seq hseq
    have hgetD : ∀ j, seq.getD j 0 ≤ max dl sl := by
      intro j
      rw [List.getD_eq_getElem?_getD]
      cases hv : seq[j]? with
      | none => exact Nat.zero_le _
      | some v => exact hb v (List.getElem?_mem hv)
    have hmap : ∀ (u u' : List Int),
        (∀ i, i < max dl sl → u.get? i = u'.get? i) →
        ((List.range (seq.length - 1)).map
            (fun i => (seq.getD i 0, seq.getD (i + 1) 0))).map
          (fun pr => sliceMode u pr.1 pr.2)
        = ((List.range (seq.length - 1)).map
            (fun i => (seq.getD i 0, seq.getD (i + 1) 0))).map
          (fun pr => sliceMode u' pr.1 pr.2) := by
      intro u u' hu
      apply List.map_congr_left
      intro pr hpr
      obtain ⟨i, -, rfl⟩ := List.mem_map.mp hpr
      unfold sliceMode
      rw [slice_congr u u' (max dl sl) hu _ _ (hgetD (i + 1))]
    rw [hmap d d' hd, hmap s s' hs, hmap t t' ht]

/-- C5 witness: buffers `[1,2,9]` versus `[1,2,7]` (and similarly for score
and tempo) agree below `max 2 2 = 2` and give identical outputs. -/
theorem C5_padding_beyond_max_irrelevant_witness :
    getSegments [1, 2, 9] 2 [4, 4, 9] 2 [6, 6, 9] 2
      = getSegments [1, 2, 7] 2 [4, 4, 7] 2 [6, 6, 7] 2 :=
  C5_padding_beyond_max_irrelevant [1, 2, 9] [1, 2, 7] [4, 4, 9] [4, 4, 7]
    [6, 6, 9] [6, 6, 7] 2 2 2 (by decide) (by decide) (by decide)

end Muskit
